import Mathlib

/-!
Verification of the bracket-rewriting tool in src/fix_brackets.py.

The program applies four ordered regex substitutions (Python re.sub) to a
text blob, then a command-line driver reads files, applies the rewriter and
writes a file back only when the content changed.

We embed the four regexes shallowly: a small regex AST covering exactly the
constructs they use (literal characters, the character classes that occur,
greedy option / star / plus on a character class, the word-boundary assertion
and capture groups), a backtracking matcher returning all matches in Python
preference order (greedy, leftmost), and a substitution function that scans
left to right and replaces each leftmost non-overlapping match, exactly the
semantics of re.sub.  Character classes are modelled on code points; the
word/space classes use their ASCII and Latin-1 members, which covers the
ASCII assembly sources the tool is written for.
-/

namespace FixBrackets

/-- Character classes occurring in the four regexes of fix_brackets.py. -/
inductive CC where
  | lit : Char → CC
  | upper : CC
  | identStart : CC
  | identCont : CC
  | space : CC
  | notRBrack : CC
  | plusMinus : CC
deriving DecidableEq

/-- Test of a character class on a character, by code point:
upper is A-Z, identStart is a-zA-Z_, identCont is a-zA-Z0-9_,
space is Python re whitespace, notRBrack is any character except the
closing square bracket, plusMinus is plus or minus. -/
def CC.test : CC → Char → Bool
  | .lit c, d => d == c
  | .upper, d => decide (65 ≤ d.toNat) && decide (d.toNat ≤ 90)
  | .identStart, d =>
      (decide (97 ≤ d.toNat) && decide (d.toNat ≤ 122)) ||
      (decide (65 ≤ d.toNat) && decide (d.toNat ≤ 90)) || d.toNat == 95
  | .identCont, d =>
      (decide (97 ≤ d.toNat) && decide (d.toNat ≤ 122)) ||
      (decide (65 ≤ d.toNat) && decide (d.toNat ≤ 90)) ||
      (decide (48 ≤ d.toNat) && decide (d.toNat ≤ 57)) || d.toNat == 95
  | .space, d =>
      d.toNat == 32 || d.toNat == 9 || d.toNat == 10 || d.toNat == 11 ||
      d.toNat == 12 || d.toNat == 13 || d.toNat == 28 || d.toNat == 29 ||
      d.toNat == 30 || d.toNat == 31 || d.toNat == 133 || d.toNat == 160
  | .notRBrack, d => !(d == ']')
  | .plusMinus, d => d == '+' || d == '-'

/-- Regex abstract syntax: exactly the constructs the four patterns use.
opt, star and plus are greedy and apply to a single character class. -/
inductive RE where
  | cls : CC → RE
  | seq : RE → RE → RE
  | opt : CC → RE
  | star : CC → RE
  | plus : CC → RE
  | bound : RE
  | grp : Nat → RE → RE

/-- A word character for the boundary assertion: same as identCont. -/
def isWordChar (c : Char) : Bool := CC.test CC.identCont c

/-- Boundary test of Python re: the word-ness of the previous character
(none at the start of the text) differs from that of the next one. -/
def isBoundary (prev : Option Char) (s : List Char) : Bool :=
  (match prev with
   | some c => isWordChar c
   | none => false) !=
  (match s with
   | c :: _ => isWordChar c
   | [] => false)

/-- One match result: the characters consumed, the remaining input and the
captured groups recorded so far. -/
structure MRes where
  consumed : List Char
  rest : List Char
  caps : Nat → List Char

/-- Last character of a consumed prefix, falling back to the previous
character when nothing was consumed. -/
def lastOpt (l : List Char) (p : Option Char) : Option Char :=
  match l.getLast? with
  | some c => some c
  | none => p

/-- Length of the maximal prefix of characters of class k. -/
def runLen (k : CC) (s : List Char) : Nat := (s.takeWhile (CC.test k)).length

/-- All ways a regex can match a prefix of s, in Python preference order
(greedy quantifiers first, sequencing backtracks right to left).  prev is
the character just before s in the overall text, for the boundary test. -/
def matchList : RE → Option Char → List Char → (Nat → List Char) → List MRes
  | .cls k, _, s, caps =>
    match s with
    | [] => []
    | c :: t => if CC.test k c then [⟨[c], t, caps⟩] else []
  | .opt k, _, s, caps =>
    match s with
    | [] => [⟨[], [], caps⟩]
    | c :: t => if CC.test k c then [⟨[c], t, caps⟩, ⟨[], c :: t, caps⟩]
                else [⟨[], c :: t, caps⟩]
  | .star k, _, s, caps =>
    (List.range (runLen k s + 1)).map
      (fun i => ⟨s.take (runLen k s - i), s.drop (runLen k s - i), caps⟩)
  | .plus k, _, s, caps =>
    (List.range (runLen k s)).map
      (fun i => ⟨s.take (runLen k s - i), s.drop (runLen k s - i), caps⟩)
  | .bound, prev, s, caps =>
    if isBoundary prev s then [⟨[], s, caps⟩] else []
  | .seq a b, prev, s, caps =>
    (matchList a prev s caps).flatMap (fun ra =>
      (matchList b (lastOpt ra.consumed prev) ra.rest ra.caps).map (fun rb =>
        ⟨ra.consumed ++ rb.consumed, rb.rest, rb.caps⟩))
  | .grp n r, prev, s, caps =>
    (matchList r prev s caps).map (fun rr =>
      ⟨rr.consumed, rr.rest, fun m => if m == n then rr.consumed else rr.caps m⟩)

/-- The empty capture assignment at the start of each match attempt. -/
def emptyCaps : Nat → List Char := fun _ => []

/-- The match Python re picks at this position: the first in preference
order. -/
def firstMatch (r : RE) (prev : Option Char) (s : List Char) : Option MRes :=
  (matchList r prev s emptyCaps).head?

/-- A replacement template item: a literal piece or a group reference. -/
inductive TItem where
  | str : List Char → TItem
  | ref : Nat → TItem

/-- Instantiate a replacement template with the captures of a match. -/
def applyTmpl (t : List TItem) (caps : Nat → List Char) : List Char :=
  t.flatMap (fun it =>
    match it with
    | .str l => l
    | .ref n => caps n)

/-- Left-to-right scan of re.sub: at each position try the pattern; on a
match emit the instantiated template and continue after the match (after
one input character when the match is empty); otherwise copy one character.
The fuel argument only serves termination; sub supplies enough. -/
def subAux : Nat → RE → List TItem → Option Char → List Char → List Char
  | 0, _, _, _, s => s
  | fuel + 1, r, t, prev, s =>
    match firstMatch r prev s with
    | some m =>
      match m.consumed with
      | [] =>
        match s with
        | [] => applyTmpl t m.caps
        | c :: rest => applyTmpl t m.caps ++ c :: subAux fuel r t (some c) rest
      | _ :: _ => applyTmpl t m.caps ++ subAux fuel r t (lastOpt m.consumed prev) m.rest
    | none =>
      match s with
      | [] => []
      | c :: rest => c :: subAux fuel r t (some c) rest

/-- re.sub of one pattern and template over a character list. -/
def sub (r : RE) (t : List TItem) (s : List Char) : List Char :=
  subAux s.length r t none s

/-- The mnemonic group of pattern 1: LDA?W? . -/
def mnem1 : RE :=
  .seq (.cls (.lit 'L')) (.seq (.cls (.lit 'D')) (.seq (.opt (.lit 'A')) (.opt (.lit 'W'))))

/-- The mnemonic group of patterns 2, 3 and 4: LDA?W?B? . -/
def mnem2 : RE :=
  .seq (.cls (.lit 'L')) (.seq (.cls (.lit 'D'))
    (.seq (.opt (.lit 'A')) (.seq (.opt (.lit 'W')) (.opt (.lit 'B')))))

/-- A register token: two uppercase letters. -/
def regRE : RE := .seq (.cls .upper) (.cls .upper)

/-- A simple label: identStart then identCont star. -/
def identRE : RE := .seq (.cls .identStart) (.star .identCont)

/-- Bracket content with an operator: nonempty non-bracket run, a plus or
minus, nonempty non-bracket run. -/
def exprRE : RE := .seq (.plus .notRBrack) (.seq (.cls .plusMinus) (.plus .notRBrack))

/-- Pattern 1 of fix_bracket_syntax in src/fix_brackets.py. -/
def pat1 : RE :=
  .seq .bound (.seq (.grp 1 mnem1) (.seq (.plus .space) (.seq (.grp 2 regRE)
    (.seq (.cls (.lit ',')) (.seq (.star .space) (.seq (.cls (.lit '['))
      (.seq (.grp 3 identRE) (.cls (.lit ']')))))))))

/-- Pattern 2 of fix_bracket_syntax in src/fix_brackets.py. -/
def pat2 : RE :=
  .seq .bound (.seq (.grp 1 mnem2) (.seq (.plus .space) (.seq (.grp 2 regRE)
    (.seq (.cls (.lit ',')) (.seq (.star .space) (.seq (.cls (.lit '['))
      (.seq (.grp 3 exprRE) (.cls (.lit ']')))))))))

/-- Pattern 3 of fix_bracket_syntax in src/fix_brackets.py. -/
def pat3 : RE :=
  .seq .bound (.seq (.grp 1 mnem2) (.seq (.plus .space) (.seq (.cls (.lit '['))
    (.seq (.grp 2 identRE) (.seq (.cls (.lit ']')) (.seq (.cls (.lit ','))
      (.seq (.star .space) (.grp 3 regRE))))))))

/-- Pattern 4 of fix_bracket_syntax in src/fix_brackets.py. -/
def pat4 : RE :=
  .seq .bound (.seq (.grp 1 mnem2) (.seq (.plus .space) (.seq (.cls (.lit '['))
    (.seq (.grp 2 exprRE) (.seq (.cls (.lit ']')) (.seq (.cls (.lit ','))
      (.seq (.star .space) (.grp 3 regRE))))))))

/-- Replacement template of pattern 1. -/
def tmpl1 : List TItem :=
  [.str ('L' :: 'D' :: 'A' :: []), .ref 2, .str (' ' :: []), .ref 2,
   .str (',' :: ' ' :: []), .ref 3]

/-- Replacement template of pattern 2. -/
def tmpl2 : List TItem :=
  [.str ('L' :: 'D' :: 'A' :: []), .ref 1, .str (' ' :: []), .ref 2,
   .str (',' :: ' ' :: '(' :: []), .ref 3, .str (')' :: [])]

/-- Replacement template of pattern 3. -/
def tmpl3 : List TItem :=
  [.str ('L' :: 'D' :: 'A' :: []), .ref 1, .str (' ' :: []), .ref 2,
   .str (',' :: ' ' :: []), .ref 3]

/-- Replacement template of pattern 4. -/
def tmpl4 : List TItem :=
  [.str ('L' :: 'D' :: 'A' :: []), .ref 1, .str (' ' :: '(' :: []), .ref 2,
   .str (')' :: ',' :: ' ' :: []), .ref 3]

/-- The four substitutions in order, over a character list. -/
def fixList (l : List Char) : List Char :=
  sub pat4 tmpl4 (sub pat3 tmpl3 (sub pat2 tmpl2 (sub pat1 tmpl1 l)))

/-- Model of fix_bracket_syntax of src/fix_brackets.py: apply the four
substitutions in order to the whole content. -/
def fixBrackets (content : String) : String := ⟨fixList content.data⟩

/-! Syntactic checks over patterns, used to prove no-match results. -/

/-- Syntactic check: every string the regex accepts contains a character of
class k.  Sound for the constructs where it is claimed. -/
def mustHit (k : CC) : RE → Bool
  | .cls k2 => k2 == k
  | .seq a b => mustHit k a || mustHit k b
  | .plus k2 => k2 == k
  | .grp _ r => mustHit k r
  | _ => false

/-- Syntactic check: every string the regex accepts contains a character of
class k1 strictly before a character of class k2. -/
def mustSeq2 (k1 k2 : CC) : RE → Bool
  | .seq a b => mustSeq2 k1 k2 a || mustSeq2 k1 k2 b || (mustHit k1 a && mustHit k2 b)
  | .grp _ r => mustSeq2 k1 k2 r
  | _ => false

/-- Syntactic check: the regex matches only the empty string. -/
def zeroOnly : RE → Bool
  | .bound => true
  | .seq a b => zeroOnly a && zeroOnly b
  | .grp _ r => zeroOnly r
  | _ => false

/-- Syntactic first-character class: every nonempty match starts with a
character of this class, and the regex cannot match the empty string. -/
def firstCls : RE → Option CC
  | .cls k => some k
  | .plus k => some k
  | .seq a b =>
    match firstCls a with
    | some k => some k
    | none => if zeroOnly a then firstCls b else none
  | .grp _ r => firstCls r
  | _ => none

/-- An ordered pair of classes occurring in a list. -/
def OrderedPair (k1 k2 : CC) (l : List Char) : Prop :=
  ∃ u c1 v c2 w, l = u ++ c1 :: v ++ c2 :: w ∧
    CC.test k1 c1 = true ∧ CC.test k2 c2 = true

/-- Whether the text contains an opening square bracket with a closing one
somewhere after it: the shape every one of the four patterns requires. -/
def hasOpenClose : List Char → Bool
  | [] => false
  | c :: t => (c == '[' && t.any (fun d => d == ']')) || hasOpenClose t

/-- Whether a list of characters is a simple label of the patterns:
an identStart character followed by identCont characters. -/
def isIdentList : List Char → Bool
  | [] => false
  | c :: t => CC.test CC.identStart c && t.all (CC.test CC.identCont)

/-! Model of the command-line driver (main in src/fix_brackets.py).
The file system is an association list from path to content; reading a
missing path gives none (os.path.exists false). -/

/-- A file system: paths with contents. -/
abbrev FS := List (String × String)

/-- Content of a path, none when the path does not exist. -/
def fsRead (fs : FS) (p : String) : Option String :=
  match fs with
  | [] => none
  | e :: rest => if e.1 == p then some e.2 else fsRead rest p

/-- Write content to a path: replace its entry, or create it. -/
def fsWrite (fs : FS) (p : String) (c : String) : FS :=
  match fs with
  | [] => [(p, c)]
  | e :: rest => if e.1 == p then (p, c) :: rest else e :: fsWrite rest p c

/-- The usage message printed when no file argument is supplied. -/
def usage : String := "Usage: fix_brackets.py <file1.asm> [file2.asm ...]"

/-- The loop of main over the file arguments: warn and skip a missing
path; otherwise read, rewrite, and write back only when the content
changed, reporting Fixed or No changes. Returns the final file system and
the printed messages in order. -/
def processFiles : List String → FS → FS × List String
  | [], fs => (fs, [])
  | p :: rest, fs =>
    match fsRead fs p with
    | none =>
      let r := processFiles rest fs
      (r.1, ("Warning: " ++ p ++ " not found, skipping") :: r.2)
    | some content =>
      if fixBrackets content ≠ content then
        let r := processFiles rest (fsWrite fs p (fixBrackets content))
        (r.1, ("Fixed: " ++ p) :: r.2)
      else
        let r := processFiles rest fs
        (r.1, ("No changes: " ++ p) :: r.2)

/-- Model of main: argv is the full argument vector including the program
name, exactly the check len(sys.argv) < 2 of the source.  Returns the
final file system, the messages printed, and the exit status. -/
def mainRun (argv : List String) (fs : FS) : FS × List String × Nat :=
  if argv.length < 2 then (fs, [usage], 1)
  else
    let r := processFiles argv.tail fs
    (r.1, r.2, 0)

/-! Basic facts about the matcher. -/

/-- A match consumes a prefix: consumed ++ rest is the input. -/
theorem matchList_consumed_append (r : RE) :
    ∀ prev s caps res, res ∈ matchList r prev s caps → res.consumed ++ res.rest = s := by
  induction r with
  | cls k =>
    intro prev s caps res h
    match s with
    | [] => simp [matchList] at h
    | c :: t =>
      simp only [matchList] at h
      by_cases hk : CC.test k c
      · simp [hk] at h
        subst h
        rfl
      · simp [hk] at h
  | seq a b iha ihb =>
    intro prev s caps res h
    simp only [matchList, List.mem_flatMap, List.mem_map] at h
    obtain ⟨ra, hra, rb, hrb, rfl⟩ := h
    have e1 := iha _ _ _ _ hra
    have e2 := ihb _ _ _ _ hrb
    simp only [List.append_assoc]
    rw [e2, e1]
  | opt k =>
    intro prev s caps res h
    match s with
    | [] =>
      simp [matchList] at h
      subst h
      rfl
    | c :: t =>
      simp only [matchList] at h
      by_cases hk : CC.test k c
      · simp [hk] at h
        rcases h with h | h <;> (subst h; rfl)
      · simp [hk] at h
        subst h
        rfl
  | star k =>
    intro prev s caps res h
    simp only [matchList, List.mem_map, List.mem_range] at h
    obtain ⟨i, _, rfl⟩ := h
    exact List.take_append_drop _ s
  | plus k =>
    intro prev s caps res h
    simp only [matchList, List.mem_map, List.mem_range] at h
    obtain ⟨i, _, rfl⟩ := h
    exact List.take_append_drop _ s
  | bound =>
    intro prev s caps res h
    simp only [matchList] at h
    by_cases hb : isBoundary prev s
    · simp [hb] at h
      subst h
      rfl
    · simp [hb] at h
  | grp n r ih =>
    intro prev s caps res h
    simp only [matchList, List.mem_map] at h
    obtain ⟨rr, hrr, rfl⟩ := h
    show rr.consumed ++ rr.rest = s
    exact ih _ _ _ _ hrr

/-- Members of a prefix within the maximal k-run satisfy k. -/
theorem test_of_mem_take_runLen (k : CC) (s : List Char) (m : Nat)
    (hm : m ≤ runLen k s) : ∀ c ∈ s.take m, CC.test k c = true := by
  intro c hc
  have hpre : s.take m = (s.takeWhile (CC.test k)).take m := by
    conv_lhs => rw [← List.takeWhile_append_dropWhile (p := CC.test k) (l := s)]
    exact List.take_append_of_le_length hm
  rw [hpre] at hc
  exact List.mem_takeWhile_imp (List.take_subset _ _ hc)

/-- Soundness of mustHit. -/
theorem mustHit_sound (k : CC) (r : RE) :
    ∀ prev s caps res, mustHit k r = true → res ∈ matchList r prev s caps →
      ∃ c ∈ res.consumed, CC.test k c = true := by
  induction r with
  | cls k2 =>
    intro prev s caps res hk h
    match s with
    | [] => simp [matchList] at h
    | c :: t =>
      simp only [matchList] at h
      by_cases ht : CC.test k2 c
      · simp [ht] at h
        subst h
        refine ⟨c, by simp, ?_⟩
        have : k2 = k := by simpa [mustHit] using hk
        rw [← this]
        exact ht
      · simp [ht] at h
  | seq a b iha ihb =>
    intro prev s caps res hk h
    simp only [matchList, List.mem_flatMap, List.mem_map] at h
    obtain ⟨ra, hra, rb, hrb, rfl⟩ := h
    simp only [mustHit, Bool.or_eq_true] at hk
    rcases hk with hk | hk
    · obtain ⟨c, hc, ht⟩ := iha _ _ _ _ hk hra
      exact ⟨c, by simp [hc], ht⟩
    · obtain ⟨c, hc, ht⟩ := ihb _ _ _ _ hk hrb
      exact ⟨c, by simp [hc], ht⟩
  | opt k2 => intro prev s caps res hk h; simp [mustHit] at hk
  | star k2 => intro prev s caps res hk h; simp [mustHit] at hk
  | plus k2 =>
    intro prev s caps res hk h
    simp only [matchList, List.mem_map, List.mem_range] at h
    obtain ⟨i, hi, rfl⟩ := h
    have hk2 : k2 = k := by simpa [mustHit] using hk
    subst hk2
    have hmle : runLen k2 s - i ≤ runLen k2 s := Nat.sub_le _ _
    have hpos : 1 ≤ runLen k2 s - i := by omega
    have hlen : runLen k2 s ≤ s.length := by
      have := List.Sublist.length_le (List.takeWhile_sublist (p := CC.test k2) (l := s))
      simpa [runLen] using this
    have hne : (s.take (runLen k2 s - i)) ≠ [] := by
      have : (s.take (runLen k2 s - i)).length = runLen k2 s - i := by
        rw [List.length_take]
        omega
      intro hnil
      rw [hnil] at this
      simp at this
      omega
    obtain ⟨c, hc⟩ := List.exists_mem_of_ne_nil _ hne
    exact ⟨c, hc, test_of_mem_take_runLen _ _ _ hmle c hc⟩
  | bound => intro prev s caps res hk h; simp [mustHit] at hk
  | grp n r ih =>
    intro prev s caps res hk h
    simp only [matchList, List.mem_map] at h
    obtain ⟨rr, hrr, rfl⟩ := h
    simpa using ih _ _ _ _ (by simpa [mustHit] using hk) hrr

theorem orderedPair_append_left (k1 k2 : CC) (p l : List Char)
    (h : OrderedPair k1 k2 l) : OrderedPair k1 k2 (p ++ l) := by
  obtain ⟨u, c1, v, c2, w, rfl, h1, h2⟩ := h
  exact ⟨p ++ u, c1, v, c2, w, by simp, h1, h2⟩

theorem orderedPair_append_right (k1 k2 : CC) (l p : List Char)
    (h : OrderedPair k1 k2 l) : OrderedPair k1 k2 (l ++ p) := by
  obtain ⟨u, c1, v, c2, w, rfl, h1, h2⟩ := h
  exact ⟨u, c1, v, c2, w ++ p, by simp, h1, h2⟩

/-- Soundness of mustSeq2. -/
theorem mustSeq2_sound (k1 k2 : CC) (r : RE) :
    ∀ prev s caps res, mustSeq2 k1 k2 r = true → res ∈ matchList r prev s caps →
      OrderedPair k1 k2 res.consumed := by
  induction r with
  | cls k => intro prev s caps res hk h; simp [mustSeq2] at hk
  | seq a b iha ihb =>
    intro prev s caps res hk h
    simp only [matchList, List.mem_flatMap, List.mem_map] at h
    obtain ⟨ra, hra, rb, hrb, rfl⟩ := h
    simp only [mustSeq2, Bool.or_eq_true, Bool.and_eq_true] at hk
    rcases hk with (hk | hk) | ⟨hk1, hk2⟩
    · exact orderedPair_append_right _ _ _ _ (iha _ _ _ _ hk hra)
    · exact orderedPair_append_left _ _ _ _ (ihb _ _ _ _ hk hrb)
    · obtain ⟨c1, hc1, ht1⟩ := mustHit_sound k1 a _ _ _ _ hk1 hra
      obtain ⟨c2, hc2, ht2⟩ := mustHit_sound k2 b _ _ _ _ hk2 hrb
      obtain ⟨u1, v1, e1⟩ := List.append_of_mem hc1
      obtain ⟨u2, v2, e2⟩ := List.append_of_mem hc2
      refine ⟨u1, c1, v1 ++ u2, c2, v2, ?_, ht1, ht2⟩
      show ra.consumed ++ rb.consumed = _
      rw [e1, e2]
      simp
  | opt k => intro prev s caps res hk h; simp [mustSeq2] at hk
  | star k => intro prev s caps res hk h; simp [mustSeq2] at hk
  | plus k => intro prev s caps res hk h; simp [mustSeq2] at hk
  | bound => intro prev s caps res hk h; simp [mustSeq2] at hk
  | grp n r ih =>
    intro prev s caps res hk h
    simp only [matchList, List.mem_map] at h
    obtain ⟨rr, hrr, rfl⟩ := h
    show OrderedPair k1 k2 rr.consumed
    exact ih _ _ _ _ (by simpa [mustSeq2] using hk) hrr

/-! The bracket-construct test and the identity lemma. -/

theorem hasOpenClose_append_left (p l : List Char)
    (h : hasOpenClose l = true) : hasOpenClose (p ++ l) = true := by
  induction p with
  | nil => simpa using h
  | cons c t ih =>
    show hasOpenClose (c :: (t ++ l)) = true
    simp only [hasOpenClose]
    rw [ih]
    simp

theorem hasOpenClose_split (u v w : List Char) :
    hasOpenClose (u ++ '[' :: v ++ ']' :: w) = true := by
  induction u with
  | nil =>
    show hasOpenClose ('[' :: (v ++ ']' :: w)) = true
    simp only [hasOpenClose]
    simp
  | cons c t ih =>
    show hasOpenClose (c :: (t ++ '[' :: v ++ ']' :: w)) = true
    simp only [hasOpenClose]
    rw [ih]
    simp

theorem hasOpenClose_of_orderedPair (l : List Char)
    (h : OrderedPair (.lit '[') (.lit ']') l) : hasOpenClose l = true := by
  obtain ⟨u, c1, v, c2, w, rfl, h1, h2⟩ := h
  have e1 : c1 = '[' := by simpa [CC.test] using h1
  have e2 : c2 = ']' := by simpa [CC.test] using h2
  subst e1
  subst e2
  exact hasOpenClose_split u v w

/-- If the text has no bracket construct, a pattern that needs one cannot
match. -/
theorem matchList_nil_of_noOpenClose (r : RE)
    (hr : mustSeq2 (.lit '[') (.lit ']') r = true)
    (s : List Char) (h : hasOpenClose s = false) :
    ∀ prev caps, matchList r prev s caps = [] := by
  intro prev caps
  rw [List.eq_nil_iff_forall_not_mem]
  intro res hres
  have hop := mustSeq2_sound _ _ _ _ _ _ _ hr hres
  have happ := matchList_consumed_append _ _ _ _ _ hres
  have : OrderedPair (.lit '[') (.lit ']') s := by
    rw [← happ]
    exact orderedPair_append_right _ _ _ _ hop
  rw [hasOpenClose_of_orderedPair _ this] at h
  exact Bool.true_eq_false.mp h

/-- If no suffix of the text matches, the substitution is the identity. -/
theorem subAux_id (r : RE) (t : List TItem) (s0 : List Char)
    (H : ∀ prev s, s <:+ s0 → matchList r prev s emptyCaps = []) :
    ∀ fuel prev s, s <:+ s0 → subAux fuel r t prev s = s := by
  intro fuel
  induction fuel with
  | zero => intro prev s _; rfl
  | succ n ih =>
    intro prev s hs
    have hfm : firstMatch r prev s = none := by
      simp [firstMatch, H prev s hs]
    match s with
    | [] => simp [subAux, hfm]
    | c :: rest =>
      have hrest : rest <:+ s0 := List.IsSuffix.trans (List.suffix_cons c rest) hs
      simp [subAux, hfm, ih (some c) rest hrest]

/-- sub is the identity when no suffix of the input matches. -/
theorem sub_id (r : RE) (t : List TItem) (s : List Char)
    (H : ∀ prev s2, s2 <:+ s → matchList r prev s2 emptyCaps = []) :
    sub r t s = s :=
  subAux_id r t s H s.length none s (List.suffix_refl s)

theorem hasOpenClose_of_suffix (s2 s : List Char) (hsuf : s2 <:+ s)
    (h : hasOpenClose s2 = true) : hasOpenClose s = true := by
  obtain ⟨p, rfl⟩ := hsuf
  exact hasOpenClose_append_left p s2 h

/-- Each of the four patterns needs a bracket construct. -/
theorem pat1_mustSeq2 : mustSeq2 (.lit '[') (.lit ']') pat1 = true := by decide
theorem pat2_mustSeq2 : mustSeq2 (.lit '[') (.lit ']') pat2 = true := by decide
theorem pat3_mustSeq2 : mustSeq2 (.lit '[') (.lit ']') pat3 = true := by decide
theorem pat4_mustSeq2 : mustSeq2 (.lit '[') (.lit ']') pat4 = true := by decide

/-- A pattern that needs a bracket construct substitutes nothing in a text
with no bracket construct. -/
theorem sub_id_of_noOpenClose (r : RE) (t : List TItem)
    (hr : mustSeq2 (.lit '[') (.lit ']') r = true)
    (l : List Char) (h : hasOpenClose l = false) : sub r t l = l := by
  apply sub_id
  intro prev s2 hsuf
  apply matchList_nil_of_noOpenClose r hr
  cases hoc : hasOpenClose s2 with
  | false => rfl
  | true => rw [hasOpenClose_of_suffix s2 l hsuf hoc] at h; exact absurd h (by simp)

/-- The whole rewrite is the identity on a text with no bracket construct. -/
theorem fixList_id_of_noOpenClose (l : List Char) (h : hasOpenClose l = false) :
    fixList l = l := by
  unfold fixList
  rw [sub_id_of_noOpenClose _ _ pat1_mustSeq2 _ h,
      sub_id_of_noOpenClose _ _ pat2_mustSeq2 _ h,
      sub_id_of_noOpenClose _ _ pat3_mustSeq2 _ h,
      sub_id_of_noOpenClose _ _ pat4_mustSeq2 _ h]

/-- A text without an opening bracket has no bracket construct. -/
theorem hasOpenClose_eq_false_of_not_mem (l : List Char) (h : '[' ∉ l) :
    hasOpenClose l = false := by
  induction l with
  | nil => rfl
  | cons c t ih =>
    have hc : (c == '[') = false := by
      cases he : (c == '[') with
      | true => exact absurd (List.mem_cons_self c t) (by rw [beq_iff_eq] at he; rw [he] at h ⊢; exact h)
      | false => rfl
    have ht : '[' ∉ t := fun hm => h (List.mem_cons_of_mem c hm)
    simp [hasOpenClose, hc, ih ht]

/-! Facts about the file-system model. -/

theorem fsRead_write_self (fs : FS) (p c : String) :
    fsRead (fsWrite fs p c) p = some c := by
  induction fs with
  | nil => simp [fsWrite, fsRead]
  | cons e rest ih =>
    cases h : (e.1 == p) with
    | true => simp [fsWrite, fsRead, h]
    | false => simp [fsWrite, fsRead, h, ih]

theorem fsRead_write_ne (fs : FS) (p q c : String) (h : p ≠ q) :
    fsRead (fsWrite fs q c) p = fsRead fs p := by
  have hqp : (q == p) = false := beq_eq_false_iff_ne.mpr (Ne.symm h)
  induction fs with
  | nil => simp [fsWrite, fsRead, hqp]
  | cons e rest ih =>
    cases he : (e.1 == q) with
    | true =>
      have he1 : e.1 = q := beq_iff_eq.mp he
      have hep : (e.1 == p) = false := beq_eq_false_iff_ne.mpr (by rw [he1]; exact Ne.symm h)
      simp [fsWrite, fsRead, he, hqp, hep]
    | false => simp [fsWrite, fsRead, he, ih]

/-- A missing path stays missing through the loop, and gets its warning
printed when it is among the arguments. -/
theorem processFiles_absent (p : String) :
    ∀ files fs, fsRead fs p = none →
      fsRead (processFiles files fs).1 p = none ∧
      (p ∈ files →
        ("Warning: " ++ p ++ " not found, skipping") ∈ (processFiles files fs).2) := by
  intro files
  induction files with
  | nil =>
    intro fs h
    refine ⟨by simpa [processFiles] using h, ?_⟩
    intro hp
    simp at hp
  | cons q rest ih =>
    intro fs h
    match hq : fsRead fs q with
    | none =>
      have hrec := ih fs h
      constructor
      · simpa [processFiles, hq] using hrec.1
      · intro hp
        rcases List.mem_cons.mp hp with rfl | hp
        · simp [processFiles, hq]
        · simp [processFiles, hq]
          right
          exact hrec.2 hp
    | some content =>
      have hpq : p ≠ q := by
        intro he
        rw [he, hq] at h
        exact Option.noConfusion h
      by_cases hch : fixBrackets content ≠ content
      · have habs : fsRead (fsWrite fs q (fixBrackets content)) p = none := by
          rw [fsRead_write_ne fs p q _ hpq]
          exact h
        have hrec := ih (fsWrite fs q (fixBrackets content)) habs
        constructor
        · simpa [processFiles, hq, hch] using hrec.1
        · intro hp
          rcases List.mem_cons.mp hp with rfl | hp
          · exact absurd rfl hpq
          · simp [processFiles, hq, hch]
            right
            exact hrec.2 hp
      · have hrec := ih fs h
        constructor
        · simpa [processFiles, hq, hch] using hrec.1
        · intro hp
          rcases List.mem_cons.mp hp with rfl | hp
          · exact absurd rfl hpq
          · simp [processFiles, hq, hch]
            right
            exact hrec.2 hp

/-! No-match lemmas driven by the syntactic checks. -/

/-- A pattern that must hit class k cannot match inside a text with no k
character. -/
theorem matchList_nil_of_no_hit (r : RE) (k : CC) (hr : mustHit k r = true)
    (s : List Char) (h : ∀ c ∈ s, CC.test k c = false) :
    ∀ prev caps, matchList r prev s caps = [] := by
  intro prev caps
  rw [List.eq_nil_iff_forall_not_mem]
  intro res hres
  obtain ⟨c, hc, ht⟩ := mustHit_sound k r _ _ _ _ hr hres
  have happ := matchList_consumed_append _ _ _ _ _ hres
  have hcs : c ∈ s := by
    rw [← happ]
    exact List.mem_append_left _ hc
  rw [h c hcs] at ht
  exact Bool.false_ne_true ht

/-- Soundness of zeroOnly. -/
theorem zeroOnly_sound (r : RE) :
    ∀ prev s caps res, zeroOnly r = true → res ∈ matchList r prev s caps →
      res.consumed = [] ∧ res.rest = s := by
  induction r with
  | cls k => intro prev s caps res hz h; simp [zeroOnly] at hz
  | seq a b iha ihb =>
    intro prev s caps res hz h
    simp only [zeroOnly, Bool.and_eq_true] at hz
    simp only [matchList, List.mem_flatMap, List.mem_map] at h
    obtain ⟨ra, hra, rb, hrb, rfl⟩ := h
    obtain ⟨ea, ea2⟩ := iha _ _ _ _ hz.1 hra
    obtain ⟨eb, eb2⟩ := ihb _ _ _ _ hz.2 hrb
    constructor
    · show ra.consumed ++ rb.consumed = []
      rw [ea, eb]
      rfl
    · show rb.rest = s
      rw [eb2, ea2]
  | opt k => intro prev s caps res hz h; simp [zeroOnly] at hz
  | star k => intro prev s caps res hz h; simp [zeroOnly] at hz
  | plus k => intro prev s caps res hz h; simp [zeroOnly] at hz
  | bound =>
    intro prev s caps res hz h
    simp only [matchList] at h
    by_cases hb : isBoundary prev s
    · simp [hb] at h
      subst h
      exact ⟨rfl, rfl⟩
    · simp [hb] at h
  | grp n r ih =>
    intro prev s caps res hz h
    simp only [matchList, List.mem_map] at h
    obtain ⟨rr, hrr, rfl⟩ := h
    show rr.consumed = [] ∧ rr.rest = s
    exact ih prev s caps rr (by simpa [zeroOnly] using hz) hrr

/-- Soundness of firstCls: a match forces a first character of the class. -/
theorem firstCls_sound (r : RE) :
    ∀ k prev s caps res, firstCls r = some k → res ∈ matchList r prev s caps →
      ∃ c t, s = c :: t ∧ CC.test k c = true := by
  induction r with
  | cls k2 =>
    intro k prev s caps res hk h
    have hk2 : k2 = k := by simpa [firstCls] using hk
    subst hk2
    match s with
    | [] => simp [matchList] at h
    | c :: t =>
      simp only [matchList] at h
      by_cases ht : CC.test k2 c
      · exact ⟨c, t, rfl, ht⟩
      · simp [ht] at h
  | seq a b iha ihb =>
    intro k prev s caps res hk h
    simp only [matchList, List.mem_flatMap, List.mem_map] at h
    obtain ⟨ra, hra, rb, hrb, rfl⟩ := h
    simp only [firstCls] at hk
    cases hfa : firstCls a with
    | some ka =>
      rw [hfa] at hk
      simp at hk
      subst hk
      exact iha _ _ _ _ _ hfa hra
    | none =>
      rw [hfa] at hk
      by_cases hz : zeroOnly a
      · rw [if_pos hz] at hk
        have hrest := (zeroOnly_sound a _ _ _ _ hz hra).2
        rw [← hrest]
        exact ihb _ _ _ _ _ hk hrb
      · rw [if_neg hz] at hk
        exact Option.noConfusion hk
  | opt k2 => intro k prev s caps res hk h; simp [firstCls] at hk
  | star k2 => intro k prev s caps res hk h; simp [firstCls] at hk
  | plus k2 =>
    intro k prev s caps res hk h
    have hk2 : k2 = k := by simpa [firstCls] using hk
    subst hk2
    simp only [matchList, List.mem_map, List.mem_range] at h
    obtain ⟨i, hi, rfl⟩ := h
    have hrun : 1 ≤ runLen k2 s := by omega
    match s with
    | [] => simp [runLen] at hrun
    | c :: t =>
      refine ⟨c, t, rfl, ?_⟩
      by_cases htest : CC.test k2 c
      · exact htest
      · rw [runLen, List.takeWhile_cons] at hrun
        simp [htest] at hrun
  | bound => intro k prev s caps res hk h; simp [firstCls] at hk
  | grp n r ih =>
    intro k prev s caps res hk h
    simp only [matchList, List.mem_map] at h
    obtain ⟨rr, hrr, rfl⟩ := h
    exact ih k prev s caps rr (by simpa [firstCls] using hk) hrr

/-- A pattern whose first character class rejects the head of the text
cannot match. -/
theorem matchList_nil_of_first (r : RE) (k : CC) (hr : firstCls r = some k)
    (prev : Option Char) (s : List Char) (caps : Nat → List Char)
    (h : ∀ c, s.head? = some c → CC.test k c = false) :
    matchList r prev s caps = [] := by
  rw [List.eq_nil_iff_forall_not_mem]
  intro res hres
  obtain ⟨c, t, rfl, ht⟩ := firstCls_sound r k _ _ _ _ hr hres
  rw [h c rfl] at ht
  exact Bool.false_ne_true ht

/-- A pattern guarded by a word boundary cannot match where the boundary
test fails. -/
theorem matchList_seq_bound_nil (b : RE) (prev : Option Char) (s : List Char)
    (caps : Nat → List Char) (h : isBoundary prev s = false) :
    matchList (.seq .bound b) prev s caps = [] := by
  simp [matchList, h]

/-- A boundary-guarded pattern cannot match when its body cannot. -/
theorem matchList_seq_bound_of_nil (b : RE) (prev : Option Char) (s : List Char)
    (caps : Nat → List Char) (h : matchList b prev s caps = []) :
    matchList (.seq .bound b) prev s caps = [] := by
  simp only [matchList]
  cases hb : isBoundary prev s with
  | false => simp
  | true => simp [lastOpt, h]

/-- The boundary test fails between two word characters. -/
theorem isBoundary_false_of_words (a b : Char) (l : List Char)
    (ha : isWordChar a = true) (hb : isWordChar b = true) :
    isBoundary (some a) (b :: l) = false := by
  simp [isBoundary, ha, hb]

/-! Character-class implications used below. -/

theorem upper_not_plusMinus (c : Char) (h : CC.test .upper c = true) :
    CC.test .plusMinus c = false := by
  cases h1 : (c == '+') with
  | true =>
    rw [beq_iff_eq] at h1
    subst h1
    exact absurd h (by decide)
  | false =>
    cases h2 : (c == '-') with
    | true =>
      rw [beq_iff_eq] at h2
      subst h2
      exact absurd h (by decide)
    | false => simp [CC.test, h1, h2]

theorem identCont_not_plusMinus (c : Char) (h : CC.test .identCont c = true) :
    CC.test .plusMinus c = false := by
  cases h1 : (c == '+') with
  | true =>
    rw [beq_iff_eq] at h1
    subst h1
    exact absurd h (by decide)
  | false =>
    cases h2 : (c == '-') with
    | true =>
      rw [beq_iff_eq] at h2
      subst h2
      exact absurd h (by decide)
    | false => simp [CC.test, h1, h2]

theorem upper_ne_lbr (c : Char) (h : CC.test .upper c = true) :
    (c == '[') = false := by
  cases h1 : (c == '[') with
  | true =>
    rw [beq_iff_eq] at h1
    subst h1
    exact absurd h (by decide)
  | false => rfl

theorem identCont_ne_lbr (c : Char) (h : CC.test .identCont c = true) :
    (c == '[') = false := by
  cases h1 : (c == '[') with
  | true =>
    rw [beq_iff_eq] at h1
    subst h1
    exact absurd h (by decide)
  | false => rfl

theorem identCont_ne_rbr (c : Char) (h : CC.test .identCont c = true) :
    (c == ']') = false := by
  cases h1 : (c == ']') with
  | true =>
    rw [beq_iff_eq] at h1
    subst h1
    exact absurd h (by decide)
  | false => rfl

theorem upper_not_space (c : Char) (h : CC.test .upper c = true) :
    CC.test .space c = false := by
  simp only [CC.test, Bool.and_eq_true, decide_eq_true_eq] at h
  simp only [CC.test, Bool.or_eq_false_iff, beq_eq_false_iff_ne, ne_eq]
  omega

theorem identStart_le_identCont (c : Char) (h : CC.test .identStart c = true) :
    CC.test .identCont c = true := by
  simp only [CC.test, Bool.or_eq_true, Bool.and_eq_true, decide_eq_true_eq,
    beq_iff_eq] at h ⊢
  omega

theorem upper_isWordChar (c : Char) (h : CC.test .upper c = true) :
    isWordChar c = true := by
  simp only [isWordChar, CC.test, Bool.or_eq_true, Bool.and_eq_true,
    decide_eq_true_eq, beq_iff_eq] at h ⊢
  omega

/-- Every character of a simple label is a word character class member. -/
theorem ident_all (l : List Char) (h : isIdentList l = true) :
    ∀ c ∈ l, CC.test .identCont c = true := by
  match l with
  | [] => intro c hc; simp at hc
  | c0 :: t =>
    simp only [isIdentList, Bool.and_eq_true, List.all_eq_true] at h
    intro c hc
    rcases List.mem_cons.mp hc with rfl | hc
    · exact identStart_le_identCont _ h.1
    · exact h.2 c hc

/-! The simple-label bracket tail: when the bracket content is not a
simple label, the identifier regex can never stop right before the
closing bracket. -/

theorem takeWhile_append_of_not_all (p : Char → Bool) (t x : List Char)
    (h : t.all p = false) : (t ++ x).takeWhile p = t.takeWhile p := by
  induction t with
  | nil => simp at h
  | cons a u ih =>
    cases hp : p a with
    | false => simp [List.takeWhile_cons, hp]
    | true =>
      have hu : u.all p = false := by simpa [List.all_cons, hp] using h
      simp [List.takeWhile_cons, hp, ih hu]

theorem length_takeWhile_lt_of_not_all (p : Char → Bool) (t : List Char)
    (h : t.all p = false) : (t.takeWhile p).length < t.length := by
  induction t with
  | nil => simp at h
  | cons a u ih =>
    cases hp : p a with
    | false => simp [List.takeWhile_cons, hp]
    | true =>
      have hu : u.all p = false := by simpa [List.all_cons, hp] using h
      simp only [List.takeWhile_cons, hp, if_true, List.length_cons]
      exact Nat.succ_lt_succ (ih hu)

/-- On content that is not a simple label (and free of closing brackets),
every match of the identifier regex leaves a rest that does not start
with the closing bracket. -/
theorem identRE_rest_head (content : List Char)
    (hnb : ∀ c ∈ content, (c == ']') = false)
    (hid : isIdentList content = false) :
    ∀ prev caps res, res ∈ matchList identRE prev (content ++ [']']) caps →
      res.rest.head? ≠ some ']' := by
  intro prev caps res hres
  match content with
  | [] =>
    have hstart : CC.test CC.identStart ']' = false := by decide
    simp [identRE, matchList, hstart] at hres
  | c :: t =>
    cases hc : CC.test CC.identStart c with
    | false =>
      simp [identRE, matchList, hc] at hres
    | true =>
      have hall : t.all (CC.test CC.identCont) = false := by
        cases hall2 : t.all (CC.test CC.identCont) with
        | false => rfl
        | true => rw [isIdentList, hc, hall2] at hid; exact absurd hid (by simp)
      have hrun : runLen CC.identCont (t ++ [']']) = (t.takeWhile (CC.test CC.identCont)).length := by
        rw [runLen, takeWhile_append_of_not_all _ _ _ hall]
      have hlt : (t.takeWhile (CC.test CC.identCont)).length < t.length :=
        length_takeWhile_lt_of_not_all _ _ hall
      simp only [identRE, matchList, List.cons_append, hc, if_true, List.flatMap_cons,
        List.flatMap_nil, List.mem_append, List.mem_map, List.mem_range,
        List.append_nil] at hres
      obtain ⟨rb, ⟨i, hi, rfl⟩, rfl⟩ := hres
      intro hhead
      set m := runLen CC.identCont (t ++ [']']) - i with hm
      have hmle : m ≤ (t.takeWhile (CC.test CC.identCont)).length := by
        rw [hm, hrun]
        omega
      have hmlt : m < t.length := by omega
      have hdrop : (t ++ [']']).drop m = t.drop m ++ [']'] :=
        List.drop_append_of_le_length (by omega)
      have hdrop2 : t.drop m = t.get ⟨m, hmlt⟩ :: t.drop (m + 1) :=
        List.drop_eq_get_cons hmlt
      have heq : (⟨[c] ++ (t ++ [']']).take m, (t ++ [']']).drop m, caps⟩ : MRes).rest.head? =
          some (t.get ⟨m, hmlt⟩) := by
        show ((t ++ [']']).drop m).head? = _
        rw [hdrop, hdrop2]
        rfl
      rw [heq] at hhead
      have hmem : t.get ⟨m, hmlt⟩ ∈ t := List.get_mem t m hmlt
      have hne := hnb _ (List.mem_cons_of_mem c hmem)
      rw [Option.some_inj] at hhead
      rw [hhead] at hne
      simp at hne

/-- Destructor for a match of a sequencing, without unfolding the parts. -/
theorem mem_matchList_seq (a b : RE) (prev : Option Char) (s : List Char)
    (caps : Nat → List Char) (res : MRes) :
    res ∈ matchList (.seq a b) prev s caps ↔
    ∃ ra ∈ matchList a prev s caps,
      ∃ rb ∈ matchList b (lastOpt ra.consumed prev) ra.rest ra.caps,
        res = ⟨ra.consumed ++ rb.consumed, rb.rest, rb.caps⟩ := by
  simp only [matchList, List.mem_flatMap, List.mem_map]
  constructor
  · rintro ⟨ra, hra, rb, hrb, rfl⟩
    exact ⟨ra, hra, rb, hrb, rfl⟩
  · rintro ⟨ra, hra, rb, hrb, rfl⟩
    exact ⟨ra, hra, rb, hrb, rfl⟩

/-- Destructor for a match of a group, without unfolding the body. -/
theorem mem_matchList_grp (n : Nat) (r : RE) (prev : Option Char) (s : List Char)
    (caps : Nat → List Char) (res : MRes) :
    res ∈ matchList (.grp n r) prev s caps ↔
    ∃ rr ∈ matchList r prev s caps,
      res = ⟨rr.consumed, rr.rest, fun m => if m == n then rr.consumed else rr.caps m⟩ := by
  simp only [matchList, List.mem_map]
  constructor
  · rintro ⟨rr, hrr, rfl⟩
    exact ⟨rr, hrr, rfl⟩
  · rintro ⟨rr, hrr, rfl⟩
    exact ⟨rr, hrr, rfl⟩

/-- The combination used by patterns 1 and 3: a capture of the identifier
regex followed by something that must start with the closing bracket has
no match on non-label content. -/
theorem seq_grp_ident_rbr_nil (n : Nat) (b : RE)
    (hb : firstCls b = some (.lit ']'))
    (content : List Char)
    (hnb : ∀ c ∈ content, (c == ']') = false)
    (hid : isIdentList content = false) :
    ∀ prev caps,
      matchList (.seq (.grp n identRE) b) prev (content ++ [']']) caps = [] := by
  intro prev caps
  rw [List.eq_nil_iff_forall_not_mem]
  intro res hres
  rw [mem_matchList_seq] at hres
  obtain ⟨ra, hra, rb, hrb, rfl⟩ := hres
  rw [mem_matchList_grp] at hra
  obtain ⟨rr, hrr, rfl⟩ := hra
  have hhead := identRE_rest_head content hnb hid prev caps rr hrr
  have hrb2 : rb ∈ matchList b (lastOpt rr.consumed prev) rr.rest
      (fun m => if m == n then rr.consumed else rr.caps m) := hrb
  have hnil : matchList b (lastOpt rr.consumed prev) rr.rest
      (fun m => if m == n then rr.consumed else rr.caps m) = [] := by
    apply matchList_nil_of_first b _ hb
    intro c hc
    cases he : (c == ']') with
    | true =>
      rw [beq_iff_eq] at he
      subst he
      exact absurd hc hhead
    | false => simpa [CC.test] using he
  rw [hnil] at hrb2
  exact absurd hrb2 (List.not_mem_nil _)

/-! Concrete-position evaluations for the two universal no-rewrite claims.
Each lemma fixes the shape of one suffix of the text and shows the pattern
cannot match there; the bracket content stays symbolic. -/

/-- A pattern whose first-character class rejects the head cannot match. -/
theorem matchList_nil_cons (r : RE) (k : CC) (hr : firstCls r = some k)
    (c : Char) (t : List Char) (hc : CC.test k c = false)
    (prev : Option Char) (caps : Nat → List Char) :
    matchList r prev (c :: t) caps = [] := by
  apply matchList_nil_of_first r k hr
  intro d hd
  rw [List.head?_cons, Option.some_inj] at hd
  rw [← hd]
  exact hc

set_option maxHeartbeats 1000000 in
/-- Pattern 1 cannot match the whole C7 line when the bracket content is
not a simple label. -/
theorem pat1_nomatch_C7_at0 (content : List Char)
    (hnb : ∀ c ∈ content, (c == ']') = false)
    (hid : isIdentList content = false) :
    ∀ prev caps, matchList pat1 prev
      ('L' :: 'D' :: ' ' :: 'A' :: 'B' :: ',' :: ' ' :: '[' :: (content ++ [']'])) caps = [] := by
  intro prev caps
  simp only [pat1]
  apply matchList_seq_bound_of_nil
  have hA := seq_grp_ident_rbr_nil 3 (.cls (.lit ']')) rfl content hnb hid
  revert hA
  generalize (RE.seq (.grp 3 identRE) (.cls (.lit ']'))) = tailRE
  intro hA
  simp [matchList, mnem1, regRE, runLen, lastOpt, CC.test, List.takeWhile, hA]
  intro a ha x hx
  interval_cases a
  · simp at hx
    subst hx
    simp [hA]
  · simp at hx

set_option maxHeartbeats 1000000 in
/-- Pattern 3 cannot match the whole C7 line: after the mnemonic and the
space it requires an opening bracket, but the register follows. -/
theorem pat3_nomatch_C7_at0 (content : List Char) :
    ∀ prev caps, matchList pat3 prev
      ('L' :: 'D' :: ' ' :: 'A' :: 'B' :: ',' :: ' ' :: '[' :: (content ++ [']'])) caps = [] := by
  intro prev caps
  simp only [pat3]
  apply matchList_seq_bound_of_nil
  simp [matchList, mnem2, regRE, runLen, lastOpt, CC.test, List.takeWhile]

set_option maxHeartbeats 1000000 in
/-- Pattern 1 cannot match the whole C10 line: its mnemonic group LDA?W?
cannot absorb LDAB. -/
theorem pat1_nomatch_C10_at0 (r1 r2 : Char) (ident : List Char) :
    ∀ prev caps, matchList pat1 prev
      ('L' :: 'D' :: 'A' :: 'B' :: ' ' :: r1 :: r2 :: ',' :: ' ' :: '[' :: (ident ++ [']'])) caps = [] := by
  intro prev caps
  simp only [pat1]
  apply matchList_seq_bound_of_nil
  simp [matchList, mnem1, regRE, runLen, lastOpt, CC.test, List.takeWhile]

set_option maxHeartbeats 1000000 in
/-- Pattern 3 cannot match the whole C10 line: after LDAB and the space it
requires an opening bracket, but the uppercase register follows. -/
theorem pat3_nomatch_C10_at0 (r1 r2 : Char) (hu1 : CC.test .upper r1 = true)
    (ident : List Char) :
    ∀ prev caps, matchList pat3 prev
      ('L' :: 'D' :: 'A' :: 'B' :: ' ' :: r1 :: r2 :: ',' :: ' ' :: '[' :: (ident ++ [']'])) caps = [] := by
  intro prev caps
  have hs1 : CC.test .space r1 = false := upper_not_space r1 hu1
  have hlb1 : (r1 == '[') = false := upper_ne_lbr r1 hu1
  simp only [CC.test] at hs1
  simp only [pat3]
  apply matchList_seq_bound_of_nil
  simp [matchList, mnem2, regRE, runLen, lastOpt, CC.test, List.takeWhile, hs1, hlb1]

set_option maxHeartbeats 1000000 in
/-- Pattern 1 cannot match starting at an uppercase letter L directly
followed by the rest of a register and the comma. -/
theorem pat1_nomatch_L2 (c2 : Char) (tail : List Char) :
    ∀ prev caps, matchList pat1 prev
      ('L' :: c2 :: ',' :: ' ' :: '[' :: tail) caps = [] := by
  intro prev caps
  simp only [pat1]
  apply matchList_seq_bound_of_nil
  by_cases hc2 : c2 = 'D'
  · subst hc2
    simp [matchList, mnem1, regRE, runLen, lastOpt, CC.test, List.takeWhile]
  · have hb2 : (c2 == 'D') = false := beq_eq_false_iff_ne.mpr hc2
    simp [matchList, mnem1, regRE, runLen, lastOpt, CC.test, List.takeWhile, hb2]

set_option maxHeartbeats 1000000 in
/-- Pattern 3 cannot match starting at an uppercase letter L directly
followed by the rest of a register and the comma. -/
theorem pat3_nomatch_L2 (c2 : Char) (tail : List Char) :
    ∀ prev caps, matchList pat3 prev
      ('L' :: c2 :: ',' :: ' ' :: '[' :: tail) caps = [] := by
  intro prev caps
  simp only [pat3]
  apply matchList_seq_bound_of_nil
  by_cases hc2 : c2 = 'D'
  · subst hc2
    simp [matchList, mnem2, regRE, runLen, lastOpt, CC.test, List.takeWhile]
  · have hb2 : (c2 == 'D') = false := beq_eq_false_iff_ne.mpr hc2
    simp [matchList, mnem2, regRE, runLen, lastOpt, CC.test, List.takeWhile, hb2]

set_option maxHeartbeats 1000000 in
/-- Pattern 1 cannot match starting at an L that is the second register
letter, right before the comma. -/
theorem pat1_nomatch_Lcomma (tail : List Char) :
    ∀ prev caps, matchList pat1 prev ('L' :: ',' :: ' ' :: '[' :: tail) caps = [] := by
  intro prev caps
  simp only [pat1]
  apply matchList_seq_bound_of_nil
  simp [matchList, mnem1, regRE, runLen, lastOpt, CC.test, List.takeWhile]

set_option maxHeartbeats 1000000 in
/-- Pattern 3 cannot match starting at an L that is the second register
letter, right before the comma. -/
theorem pat3_nomatch_Lcomma (tail : List Char) :
    ∀ prev caps, matchList pat3 prev ('L' :: ',' :: ' ' :: '[' :: tail) caps = [] := by
  intro prev caps
  simp only [pat3]
  apply matchList_seq_bound_of_nil
  simp [matchList, mnem2, regRE, runLen, lastOpt, CC.test, List.takeWhile]

/-! The claims. -/

/-- C1: the claim says rewrite applied to the store line LD [dest], CD
yields LDA dest, CD, matching the documented intent of pattern 3 (the
comment Replace with: LDA/LDAB/LDAW dest, source and the docstring LD
[label] to LDA label).  The code instead emits the template LDA followed
by the whole captured mnemonic, so the output is LDALD dest, CD.  This
theorem evaluates the rewriter at the failing input. -/
theorem claim_C1_store_simple_eval :
    fixBrackets "LD [dest], CD" = "LDALD dest, CD" := by decide

/-- C2 counterexample: rewrite applied to LD AB, [label + 4] does not
yield LDAAB AB, (label + 4) as the claim states. -/
theorem claim_C2_counterexample :
    fixBrackets "LD AB, [label + 4]" ≠ "LDAAB AB, (label + 4)" := by decide

/-- C2 amended: rewrite applied to LD AB, [label + 4] yields
LDALD AB, (label + 4): the bracket becomes a parenthesis via rule 2, and
the replacement prefixes LDA to the captured mnemonic LD, giving the
mnemonic LDALD. -/
theorem claim_C2_amended_expr_load :
    fixBrackets "LD AB, [label + 4]" = "LDALD AB, (label + 4)" := by decide

/-- C3: the claim says rewrite applied to LDAW [buf + 2], EF yields
LDAW (buf + 2), EF, matching the documented intent of pattern 4 (the
comment Replace with: LDA/LDAB/LDAW (expr), source).  The code emits LDA
followed by the whole captured mnemonic LDAW, so the output is
LDALDAW (buf + 2), EF.  This theorem evaluates the rewriter at the
failing input. -/
theorem claim_C3_store_expr_eval :
    fixBrackets "LDAW [buf + 2], EF" = "LDALDAW (buf + 2), EF" := by decide

/-- C4: rewrite applied to LD AB, [foo] yields LDAAB AB, foo, the
literal capture-group substitution of rule 1 (the template puts the
captured register after LDA in the mnemonic position). -/
theorem claim_C4_simple_load_eval :
    fixBrackets "LD AB, [foo]" = "LDAAB AB, foo" := by decide

/-- C5: on a text with no bracket construct (no opening square bracket
followed later by a closing one, the test hasOpenClose) the rewrite is
the identity and no rule matches at any position. -/
theorem claim_C5_no_bracket_identity (s : String)
    (h : hasOpenClose s.data = false) :
    fixBrackets s = s ∧
    ∀ r ∈ [pat1, pat2, pat3, pat4], ∀ prev s2, s2 <:+ s.data →
      firstMatch r prev s2 = none := by
  constructor
  · show (⟨fixList s.data⟩ : String) = s
    rw [fixList_id_of_noOpenClose s.data h]
  · intro r hr prev s2 hsuf
    have hno : hasOpenClose s2 = false := by
      cases hoc : hasOpenClose s2 with
      | false => rfl
      | true => rw [hasOpenClose_of_suffix s2 s.data hsuf hoc] at h; exact absurd h (by simp)
    have hseq : mustSeq2 (.lit '[') (.lit ']') r = true := by
      simp only [List.mem_cons, List.mem_nil_iff, or_false] at hr
      rcases hr with rfl | rfl | rfl | rfl
      · exact pat1_mustSeq2
      · exact pat2_mustSeq2
      · exact pat3_mustSeq2
      · exact pat4_mustSeq2
    simp [firstMatch, matchList_nil_of_noOpenClose r hseq s2 hno]

/-- Witness for C5 at a concrete bracket-free text. -/
theorem claim_C5_no_bracket_identity_witness :
    hasOpenClose (String.data "MOV AB, CD") = false ∧
    fixBrackets "MOV AB, CD" = "MOV AB, CD" :=
  ⟨by decide, (claim_C5_no_bracket_identity "MOV AB, CD" (by decide)).1⟩

/-- C6: when the output of the rewrite has no remaining bracket
characters, the rewrite is idempotent on that input. -/
theorem claim_C6_idempotent (s : String)
    (h1 : '[' ∉ (fixBrackets s).data) (h2 : ']' ∉ (fixBrackets s).data) :
    fixBrackets (fixBrackets s) = fixBrackets s := by
  have hno : hasOpenClose (fixBrackets s).data = false :=
    hasOpenClose_eq_false_of_not_mem _ h1
  show (⟨fixList (fixBrackets s).data⟩ : String) = fixBrackets s
  rw [fixList_id_of_noOpenClose _ hno]

/-- Witness for C6 at a concrete input whose output is bracket-free. -/
theorem claim_C6_idempotent_witness :
    '[' ∉ (fixBrackets "LD AB, [foo]").data ∧
    ']' ∉ (fixBrackets "LD AB, [foo]").data ∧
    fixBrackets (fixBrackets "LD AB, [foo]") = fixBrackets "LD AB, [foo]" :=
  ⟨by decide, by decide, claim_C6_idempotent "LD AB, [foo]" (by decide) (by decide)⟩

/-- C7: a bracketed operand whose content has no plus, no minus and no
bracket characters and is not a simple label matches none of the four
rules, and the line is left unchanged by the rewrite. -/
theorem claim_C7_other_operator_untouched (content : List Char)
    (hpm : ∀ c ∈ content, c ≠ '+' ∧ c ≠ '-')
    (hbr : ∀ c ∈ content, c ≠ '[' ∧ c ≠ ']')
    (hid : isIdentList content = false) :
    fixBrackets ⟨'L' :: 'D' :: ' ' :: 'A' :: 'B' :: ',' :: ' ' :: '[' :: (content ++ [']'])⟩ =
      ⟨'L' :: 'D' :: ' ' :: 'A' :: 'B' :: ',' :: ' ' :: '[' :: (content ++ [']'])⟩ := by
  have hnb : ∀ c ∈ content, (c == ']') = false :=
    fun c hc => beq_eq_false_iff_ne.mpr (hbr c hc).2
  have hnlb : ∀ c ∈ content, (c == '[') = false :=
    fun c hc => beq_eq_false_iff_ne.mpr (hbr c hc).1
  have hpml : ∀ c ∈ ('L' :: 'D' :: ' ' :: 'A' :: 'B' :: ',' :: ' ' :: '[' :: (content ++ [']'])),
      CC.test .plusMinus c = false := by
    intro c hc
    simp only [List.mem_cons] at hc
    rcases hc with rfl | rfl | rfl | rfl | rfl | rfl | rfl | rfl | hc
    · decide
    · decide
    · decide
    · decide
    · decide
    · decide
    · decide
    · decide
    · rcases List.mem_append.mp hc with hc2 | hc2
      · obtain ⟨h1, h2⟩ := hpm c hc2
        simp only [CC.test, Bool.or_eq_false_iff, beq_eq_false_iff_ne, ne_eq]
        exact ⟨h1, h2⟩
      · rw [List.mem_singleton] at hc2
        subst hc2
        decide
  have hlbr : ∀ s2, s2 <:+ content ++ [']'] → ∀ c ∈ s2, CC.test (.lit '[') c = false := by
    intro s2 hsuf c hc
    rcases List.mem_append.mp (hsuf.subset hc) with hcl | hcl
    · simpa [CC.test] using hnlb c hcl
    · rw [List.mem_singleton] at hcl
      subst hcl
      decide
  have h24 : ∀ r, mustHit .plusMinus r = true →
      ∀ prev s2, s2 <:+ ('L' :: 'D' :: ' ' :: 'A' :: 'B' :: ',' :: ' ' :: '[' :: (content ++ [']'])) →
        matchList r prev s2 emptyCaps = [] := by
    intro r hmr prev s2 hsuf
    exact matchList_nil_of_no_hit r _ hmr s2 (fun c hc => hpml c (hsuf.subset hc)) prev emptyCaps
  have h13 : ∀ r, firstCls r = some (.lit 'L') → mustHit (.lit '[') r = true →
      (∀ prev caps, matchList r prev
        ('L' :: 'D' :: ' ' :: 'A' :: 'B' :: ',' :: ' ' :: '[' :: (content ++ [']'])) caps = []) →
      ∀ prev s2, s2 <:+ ('L' :: 'D' :: ' ' :: 'A' :: 'B' :: ',' :: ' ' :: '[' :: (content ++ [']'])) →
        matchList r prev s2 emptyCaps = [] := by
    intro r hfc hmh hat0 prev s2 hsuf
    rw [List.suffix_cons_iff] at hsuf
    rcases hsuf with rfl | hsuf
    · exact hat0 prev emptyCaps
    rw [List.suffix_cons_iff] at hsuf
    rcases hsuf with rfl | hsuf
    · exact matchList_nil_cons r _ hfc 'D' _ (by decide) prev emptyCaps
    rw [List.suffix_cons_iff] at hsuf
    rcases hsuf with rfl | hsuf
    · exact matchList_nil_cons r _ hfc ' ' _ (by decide) prev emptyCaps
    rw [List.suffix_cons_iff] at hsuf
    rcases hsuf with rfl | hsuf
    · exact matchList_nil_cons r _ hfc 'A' _ (by decide) prev emptyCaps
    rw [List.suffix_cons_iff] at hsuf
    rcases hsuf with rfl | hsuf
    · exact matchList_nil_cons r _ hfc 'B' _ (by decide) prev emptyCaps
    rw [List.suffix_cons_iff] at hsuf
    rcases hsuf with rfl | hsuf
    · exact matchList_nil_cons r _ hfc ',' _ (by decide) prev emptyCaps
    rw [List.suffix_cons_iff] at hsuf
    rcases hsuf with rfl | hsuf
    · exact matchList_nil_cons r _ hfc ' ' _ (by decide) prev emptyCaps
    rw [List.suffix_cons_iff] at hsuf
    rcases hsuf with rfl | hsuf
    · exact matchList_nil_cons r _ hfc '[' _ (by decide) prev emptyCaps
    · exact matchList_nil_of_no_hit r _ hmh s2 (hlbr s2 hsuf) prev emptyCaps
  have hfix : fixList ('L' :: 'D' :: ' ' :: 'A' :: 'B' :: ',' :: ' ' :: '[' :: (content ++ [']'])) =
      'L' :: 'D' :: ' ' :: 'A' :: 'B' :: ',' :: ' ' :: '[' :: (content ++ [']']) := by
    unfold fixList
    rw [sub_id pat1 tmpl1 _
          (h13 pat1 (by decide) (by decide) (pat1_nomatch_C7_at0 content hnb hid)),
        sub_id pat2 tmpl2 _ (h24 pat2 (by decide)),
        sub_id pat3 tmpl3 _
          (h13 pat3 (by decide) (by decide) (pat3_nomatch_C7_at0 content)),
        sub_id pat4 tmpl4 _ (h24 pat4 (by decide))]
  show (⟨fixList ('L' :: 'D' :: ' ' :: 'A' :: 'B' :: ',' :: ' ' :: '[' :: (content ++ [']']))⟩ : String) = _
  rw [hfix]

/-- Witness for C7 at the content a*b from the claim. -/
theorem claim_C7_other_operator_untouched_witness :
    (∀ c ∈ ['a', '*', 'b'], c ≠ '+' ∧ c ≠ '-') ∧
    (∀ c ∈ ['a', '*', 'b'], c ≠ '[' ∧ c ≠ ']') ∧
    isIdentList ['a', '*', 'b'] = false ∧
    fixBrackets ⟨'L' :: 'D' :: ' ' :: 'A' :: 'B' :: ',' :: ' ' :: '[' :: (['a', '*', 'b'] ++ [']'])⟩ =
      ⟨'L' :: 'D' :: ' ' :: 'A' :: 'B' :: ',' :: ' ' :: '[' :: (['a', '*', 'b'] ++ [']'])⟩ :=
  ⟨by decide, by decide, by decide,
   claim_C7_other_operator_untouched ['a', '*', 'b'] (by decide) (by decide) (by decide)⟩

/-- C10: a line LDAB REG, [identifier] with a two-uppercase register and a
simple-label identifier is never rewritten: rule 1 cannot absorb the
mnemonic LDAB and no other rule applies. -/
theorem claim_C10_ldab_simple_load_unchanged (r1 r2 : Char)
    (hu1 : CC.test .upper r1 = true) (hu2 : CC.test .upper r2 = true)
    (ident : List Char) (hid : isIdentList ident = true) :
    fixBrackets ⟨'L' :: 'D' :: 'A' :: 'B' :: ' ' :: r1 :: r2 :: ',' :: ' ' :: '[' :: (ident ++ [']'])⟩ =
      ⟨'L' :: 'D' :: 'A' :: 'B' :: ' ' :: r1 :: r2 :: ',' :: ' ' :: '[' :: (ident ++ [']'])⟩ := by
  have hic : ∀ c ∈ ident, CC.test .identCont c = true := ident_all ident hid
  have hpml : ∀ c ∈ ('L' :: 'D' :: 'A' :: 'B' :: ' ' :: r1 :: r2 :: ',' :: ' ' :: '[' :: (ident ++ [']'])),
      CC.test .plusMinus c = false := by
    intro c hc
    simp only [List.mem_cons] at hc
    rcases hc with rfl | rfl | rfl | rfl | rfl | hc
    · decide
    · decide
    · decide
    · decide
    · decide
    rcases hc with rfl | rfl | hc
    · exact upper_not_plusMinus _ hu1
    · exact upper_not_plusMinus _ hu2
    rcases hc with rfl | rfl | rfl | hc
    · decide
    · decide
    · decide
    · rcases List.mem_append.mp hc with hc2 | hc2
      · exact identCont_not_plusMinus c (hic c hc2)
      · rw [List.mem_singleton] at hc2
        subst hc2
        decide
  have hlbr : ∀ s2, s2 <:+ ident ++ [']'] → ∀ c ∈ s2, CC.test (.lit '[') c = false := by
    intro s2 hsuf c hc
    rcases List.mem_append.mp (hsuf.subset hc) with hcl | hcl
    · simpa [CC.test] using identCont_ne_lbr c (hic c hcl)
    · rw [List.mem_singleton] at hcl
      subst hcl
      decide
  have h24 : ∀ r, mustHit .plusMinus r = true →
      ∀ prev s2, s2 <:+ ('L' :: 'D' :: 'A' :: 'B' :: ' ' :: r1 :: r2 :: ',' :: ' ' :: '[' :: (ident ++ [']'])) →
        matchList r prev s2 emptyCaps = [] := by
    intro r hmr prev s2 hsuf
    exact matchList_nil_of_no_hit r _ hmr s2 (fun c hc => hpml c (hsuf.subset hc)) prev emptyCaps
  have h13 : ∀ r, firstCls r = some (.lit 'L') → mustHit (.lit '[') r = true →
      (∀ prev caps, matchList r prev
        ('L' :: 'D' :: 'A' :: 'B' :: ' ' :: r1 :: r2 :: ',' :: ' ' :: '[' :: (ident ++ [']'])) caps = []) →
      (∀ c2 tail prev caps, matchList r prev ('L' :: c2 :: ',' :: ' ' :: '[' :: tail) caps = []) →
      (∀ tail prev caps, matchList r prev ('L' :: ',' :: ' ' :: '[' :: tail) caps = []) →
      ∀ prev s2, s2 <:+ ('L' :: 'D' :: 'A' :: 'B' :: ' ' :: r1 :: r2 :: ',' :: ' ' :: '[' :: (ident ++ [']'])) →
        matchList r prev s2 emptyCaps = [] := by
    intro r hfc hmh hat0 hL2 hLc prev s2 hsuf
    rw [List.suffix_cons_iff] at hsuf
    rcases hsuf with rfl | hsuf
    · exact hat0 prev emptyCaps
    rw [List.suffix_cons_iff] at hsuf
    rcases hsuf with rfl | hsuf
    · exact matchList_nil_cons r _ hfc 'D' _ (by decide) prev emptyCaps
    rw [List.suffix_cons_iff] at hsuf
    rcases hsuf with rfl | hsuf
    · exact matchList_nil_cons r _ hfc 'A' _ (by decide) prev emptyCaps
    rw [List.suffix_cons_iff] at hsuf
    rcases hsuf with rfl | hsuf
    · exact matchList_nil_cons r _ hfc 'B' _ (by decide) prev emptyCaps
    rw [List.suffix_cons_iff] at hsuf
    rcases hsuf with rfl | hsuf
    · exact matchList_nil_cons r _ hfc ' ' _ (by decide) prev emptyCaps
    rw [List.suffix_cons_iff] at hsuf
    rcases hsuf with rfl | hsuf
    · by_cases hr1 : r1 = 'L'
      · subst hr1
        exact hL2 r2 (ident ++ [']']) prev emptyCaps
      · exact matchList_nil_cons r _ hfc r1 _
          (by simpa [CC.test] using beq_eq_false_iff_ne.mpr hr1) prev emptyCaps
    rw [List.suffix_cons_iff] at hsuf
    rcases hsuf with rfl | hsuf
    · by_cases hr2 : r2 = 'L'
      · subst hr2
        exact hLc (ident ++ [']']) prev emptyCaps
      · exact matchList_nil_cons r _ hfc r2 _
          (by simpa [CC.test] using beq_eq_false_iff_ne.mpr hr2) prev emptyCaps
    rw [List.suffix_cons_iff] at hsuf
    rcases hsuf with rfl | hsuf
    · exact matchList_nil_cons r _ hfc ',' _ (by decide) prev emptyCaps
    rw [List.suffix_cons_iff] at hsuf
    rcases hsuf with rfl | hsuf
    · exact matchList_nil_cons r _ hfc ' ' _ (by decide) prev emptyCaps
    rw [List.suffix_cons_iff] at hsuf
    rcases hsuf with rfl | hsuf
    · exact matchList_nil_cons r _ hfc '[' _ (by decide) prev emptyCaps
    · exact matchList_nil_of_no_hit r _ hmh s2 (hlbr s2 hsuf) prev emptyCaps
  have hfix : fixList ('L' :: 'D' :: 'A' :: 'B' :: ' ' :: r1 :: r2 :: ',' :: ' ' :: '[' :: (ident ++ [']'])) =
      'L' :: 'D' :: 'A' :: 'B' :: ' ' :: r1 :: r2 :: ',' :: ' ' :: '[' :: (ident ++ [']']) := by
    unfold fixList
    rw [sub_id pat1 tmpl1 _
          (h13 pat1 (by decide) (by decide) (pat1_nomatch_C10_at0 r1 r2 ident)
            pat1_nomatch_L2 pat1_nomatch_Lcomma),
        sub_id pat2 tmpl2 _ (h24 pat2 (by decide)),
        sub_id pat3 tmpl3 _
          (h13 pat3 (by decide) (by decide) (pat3_nomatch_C10_at0 r1 r2 hu1 ident)
            pat3_nomatch_L2 pat3_nomatch_Lcomma),
        sub_id pat4 tmpl4 _ (h24 pat4 (by decide))]
  show (⟨fixList ('L' :: 'D' :: 'A' :: 'B' :: ' ' :: r1 :: r2 :: ',' :: ' ' :: '[' :: (ident ++ [']']))⟩ : String) = _
  rw [hfix]

/-- Witness for C10 at the line LDAB CD, [foo]. -/
theorem claim_C10_ldab_simple_load_unchanged_witness :
    CC.test .upper 'C' = true ∧ CC.test .upper 'D' = true ∧
    isIdentList ['f', 'o', 'o'] = true ∧
    fixBrackets ⟨'L' :: 'D' :: 'A' :: 'B' :: ' ' :: 'C' :: 'D' :: ',' :: ' ' :: '[' :: (['f', 'o', 'o'] ++ [']'])⟩ =
      ⟨'L' :: 'D' :: 'A' :: 'B' :: ' ' :: 'C' :: 'D' :: ',' :: ' ' :: '[' :: (['f', 'o', 'o'] ++ [']'])⟩ :=
  ⟨by decide, by decide, by decide,
   claim_C10_ldab_simple_load_unchanged 'C' 'D' (by decide) (by decide) ['f', 'o', 'o'] (by decide)⟩

/-- C8: a processed file is written back exactly when the rewritten
content differs from the original.  When they are equal the run reports
No changes and the file system is untouched, so the file stays
byte-identical; when they differ the new content is written and Fixed is
reported. -/
theorem claim_C8_write_iff_changed (fs : FS) (p content : String)
    (h : fsRead fs p = some content) :
    (fixBrackets content = content →
      processFiles [p] fs = (fs, ["No changes: " ++ p])) ∧
    (fixBrackets content ≠ content →
      processFiles [p] fs =
        (fsWrite fs p (fixBrackets content), ["Fixed: " ++ p]) ∧
      fsRead (processFiles [p] fs).1 p = some (fixBrackets content)) := by
  constructor
  · intro he
    simp [processFiles, h, he]
  · intro hne
    refine ⟨by simp [processFiles, h, hne], ?_⟩
    simp [processFiles, h, hne, fsRead_write_self]

/-- Witness for C8 on a one-file file system whose content changes. -/
theorem claim_C8_write_iff_changed_witness :
    fsRead [("a.asm", "LD AB, [foo]")] "a.asm" = some "LD AB, [foo]" ∧
    (fixBrackets "LD AB, [foo]" ≠ "LD AB, [foo]" →
      processFiles ["a.asm"] [("a.asm", "LD AB, [foo]")] =
        (fsWrite [("a.asm", "LD AB, [foo]")] "a.asm" (fixBrackets "LD AB, [foo]"),
         ["Fixed: " ++ "a.asm"]) ∧
      fsRead (processFiles ["a.asm"] [("a.asm", "LD AB, [foo]")]).1 "a.asm" =
        some (fixBrackets "LD AB, [foo]")) :=
  ⟨by decide,
   (claim_C8_write_iff_changed [("a.asm", "LD AB, [foo]")] "a.asm" "LD AB, [foo]"
     (by decide)).2⟩

/-- C9: with zero file arguments the program prints the usage message and
exits with status 1, the file system untouched; with at least one file
argument the run exits with status 0, and a missing file only gets a
warning and is skipped (it is still absent afterwards). -/
theorem claim_C9_exit_codes (prog : String) (fs : FS) :
    mainRun [prog] fs = (fs, [usage], 1) ∧
    ∀ files, files ≠ [] →
      (mainRun (prog :: files) fs).2.2 = 0 ∧
      ∀ p ∈ files, fsRead fs p = none →
        ("Warning: " ++ p ++ " not found, skipping") ∈ (mainRun (prog :: files) fs).2.1 ∧
        fsRead (mainRun (prog :: files) fs).1 p = none := by
  constructor
  · simp [mainRun]
  · intro files hne
    have hflen : 1 ≤ files.length := by
      cases files with
      | nil => exact absurd rfl hne
      | cons a t => simp
    have hlen : ¬ (prog :: files).length < 2 := by
      simp only [List.length_cons]
      omega
    have hmain : mainRun (prog :: files) fs =
        ((processFiles files fs).1, (processFiles files fs).2, 0) := by
      unfold mainRun
      rw [if_neg hlen]
      rfl
    refine ⟨by rw [hmain], ?_⟩
    intro p hp hnone
    have hcl := processFiles_absent p files fs hnone
    rw [hmain]
    exact ⟨hcl.2 hp, hcl.1⟩

/-- Witness for C9 with the program name alone and with one missing
file. -/
theorem claim_C9_exit_codes_witness :
    mainRun ["fix_brackets.py"] [] = ([], [usage], 1) ∧
    (["x.asm"] : List String) ≠ [] ∧
    fsRead [] "x.asm" = none ∧
    (mainRun ["fix_brackets.py", "x.asm"] []).2.2 = 0 ∧
    ("Warning: " ++ "x.asm" ++ " not found, skipping") ∈
      (mainRun ["fix_brackets.py", "x.asm"] []).2.1 :=
  ⟨(claim_C9_exit_codes "fix_brackets.py" []).1,
   by decide,
   rfl,
   ((claim_C9_exit_codes "fix_brackets.py" []).2 ["x.asm"] (by decide)).1,
   (((claim_C9_exit_codes "fix_brackets.py" []).2 ["x.asm"] (by decide)).2 "x.asm"
     (by decide) rfl).1⟩

end FixBrackets
